import Mathlib

/-!
# Verification of the `ecc` prime-order group abstraction layer

Shallow embedding of the scalar/element abstraction layer of the `ecc` Go
package (package `ecc`, and its `internal/edwards25519`, `internal/ristretto`,
`internal/secp256k1` backends) together with proofs about the generic
algorithms implemented at that layer: the square-and-multiply `Pow` ladder,
the `LessOrEqual` byte comparison, `UInt64`/`SetUInt64` coercion, canonical
scalar encode/decode, and the nil-operand policies of the public wrappers.

Scalars of the Ristretto255/Edwards25519 backends are field elements modulo
the prime-order-subgroup order `L = 2^252 + 27742317777372353535851937790883648493`
and are modelled as `ZMod L`; their canonical encoding is the 32-byte
little-endian byte string of the canonical representative.  Byte strings are
modelled as `List Nat` whose entries are `< 256`.
-/

/-! ## Byte strings: little-endian base-256 codec -/

/-- Little-endian base-256 encoding of `v` on exactly `len` bytes
(the shape of `scalar.Bytes()` / `Encode()` of the 25519 backends). -/
def natToBytesLE : Nat → Nat → List Nat
  | 0, _ => []
  | len + 1, v => v % 256 :: natToBytesLE len (v / 256)

/-- The integer value of a little-endian base-256 byte string. -/
def bytesToNatLE (l : List Nat) : Nat :=
  l.foldr (fun b acc => b + 256 * acc) 0

@[simp] theorem natToBytesLE_zero_len (v : Nat) : natToBytesLE 0 v = [] := rfl

@[simp] theorem natToBytesLE_succ (len v : Nat) :
    natToBytesLE (len + 1) v = v % 256 :: natToBytesLE len (v / 256) := rfl

@[simp] theorem bytesToNatLE_nil : bytesToNatLE [] = 0 := rfl

@[simp] theorem bytesToNatLE_cons (b : Nat) (l : List Nat) :
    bytesToNatLE (b :: l) = b + 256 * bytesToNatLE l := rfl

@[simp] theorem length_natToBytesLE (len v : Nat) :
    (natToBytesLE len v).length = len := by
  induction len generalizing v with
  | zero => rfl
  | succ n ih => simp [ih]

theorem mem_natToBytesLE_lt (len v : Nat) :
    ∀ b ∈ natToBytesLE len v, b < 256 := by
  induction len generalizing v with
  | zero => simp
  | succ n ih =>
    intro b hb
    rcases List.mem_cons.1 hb with h | h
    · exact h ▸ Nat.mod_lt _ (by norm_num)
    · exact ih _ b h

theorem bytesToNatLE_natToBytesLE (len v : Nat) :
    bytesToNatLE (natToBytesLE len v) = v % 256 ^ len := by
  induction len generalizing v with
  | zero => simp [Nat.mod_one]
  | succ n ih =>
    have h256 : (256 : Nat) ^ (n + 1) = 256 * 256 ^ n := by ring
    rw [natToBytesLE_succ, bytesToNatLE_cons, ih, h256, Nat.mod_mul]

theorem bytesToNatLE_natToBytesLE_of_lt {len v : Nat} (h : v < 256 ^ len) :
    bytesToNatLE (natToBytesLE len v) = v := by
  rw [bytesToNatLE_natToBytesLE, Nat.mod_eq_of_lt h]

theorem bytesToNatLE_lt (l : List Nat) (h : ∀ b ∈ l, b < 256) :
    bytesToNatLE l < 256 ^ l.length := by
  induction l with
  | nil => simp
  | cons b t ih =>
    have hb : b < 256 := h b (List.mem_cons_self ..)
    have ht := ih (fun x hx => h x (List.mem_cons_of_mem _ hx))
    have : b + 256 * bytesToNatLE t + 1 ≤ 256 * (bytesToNatLE t + 1) := by omega
    simpa [bytesToNatLE_cons, List.length_cons, pow_succ, mul_comm] using
      Nat.lt_of_lt_of_le (by omega : b + 256 * bytesToNatLE t < 256 * (bytesToNatLE t + 1))
        (Nat.mul_le_mul_left 256 ht)

theorem natToBytesLE_bytesToNatLE {l : List Nat} (h : ∀ b ∈ l, b < 256) :
    natToBytesLE l.length (bytesToNatLE l) = l := by
  induction l with
  | nil => simp
  | cons b t ih =>
    have hb : b < 256 := h b (List.mem_cons_self ..)
    have ht : ∀ x ∈ t, x < 256 := fun x hx => h x (List.mem_cons_of_mem _ hx)
    have hmod : (b + 256 * bytesToNatLE t) % 256 = b := by
      omega
    have hdiv : (b + 256 * bytesToNatLE t) / 256 = bytesToNatLE t := by
      omega
    simp [hmod, hdiv, ih ht]

theorem bytesToNatLE_eq_zero_iff (l : List Nat) :
    bytesToNatLE l = 0 ↔ ∀ b ∈ l, b = 0 := by
  induction l with
  | nil => simp
  | cons b t ih =>
    simp only [bytesToNatLE_cons, List.mem_cons]
    constructor
    · intro h
      have hb : b = 0 := by omega
      have ht : bytesToNatLE t = 0 := by omega
      rcases ih.1 ht with h'
      intro x hx
      rcases hx with hx | hx
      · exact hx ▸ hb
      · exact h' x hx
    · intro h
      have hb : b = 0 := h b (Or.inl rfl)
      have ht : bytesToNatLE t = 0 := ih.2 fun x hx => h x (Or.inr hx)
      omega

theorem getD_natToBytesLE (len v i : Nat) (h : i < len) :
    (natToBytesLE len v).getD i 0 = v / 256 ^ i % 256 := by
  induction len generalizing v i with
  | zero => omega
  | succ n ih =>
    cases i with
    | zero => simp
    | succ j =>
      have hj : j < n := by omega
      rw [natToBytesLE_succ, List.getD_cons_succ, ih (v / 256) j hj,
        Nat.div_div_eq_div_mul, pow_succ]
      ring_nf

theorem take_natToBytesLE (k len v : Nat) (h : k ≤ len) :
    (natToBytesLE len v).take k = natToBytesLE k v := by
  induction k generalizing len v with
  | zero => simp
  | succ j ih =>
    cases len with
    | zero => omega
    | succ n =>
      have hj : j ≤ n := by omega
      simp [ih n (v / 256) hj]

theorem drop_natToBytesLE (k len v : Nat) (h : k ≤ len) :
    (natToBytesLE len v).drop k = natToBytesLE (len - k) (v / 256 ^ k) := by
  induction k generalizing len v with
  | zero => simp
  | succ j ih =>
    cases len with
    | zero => omega
    | succ n =>
      have hj : j ≤ n := by omega
      rw [natToBytesLE_succ, List.drop_succ_cons, ih n (v / 256) hj,
        Nat.div_div_eq_div_mul]
      have : n + 1 - (j + 1) = n - j := by omega
      rw [this, pow_succ]
      ring_nf

/-! ## The 25519 scalar field

`L` is the order of the prime-order subgroup of Curve25519, shared by the
Ristretto255 and Edwards25519 backends; `orderBytes` is the 32-byte
little-endian constant literally present in both backend sources. -/

/-- Order of the Ristretto255/Edwards25519 scalar field
(`2^252 + 27742317777372353535851937790883648493`). -/
def L : Nat := 7237005577332262213973186563042994240857116359379907606001950938285454250989

/-- The `orderBytes` little-endian constant of the two 25519 backends. -/
def orderBytes : List Nat :=
  [237, 211, 245, 92, 26, 99, 18, 88, 214, 156, 247, 162, 222, 249, 222, 20,
   0, 0, 0, 0, 0, 0, 0, 0, 0, 0, 0, 0, 0, 0, 0, 16]

/-- The byte constant in the source encodes exactly the order `L`. -/
theorem bytesToNatLE_orderBytes : bytesToNatLE orderBytes = L := by decide

/-- Scalars of the 25519 backends: canonical residues modulo `L`. -/
abbrev Sc25519 := ZMod L

instance : NeZero L := ⟨by norm_num [L]⟩

instance : Fact (1 < L) := ⟨by norm_num [L]⟩

theorem L_pos : 0 < L := by norm_num [L]

theorem L_lt_two_pow : L < 2 ^ 256 := by norm_num [L]

/-- `canonicalEncodingLength` of the 25519 backends. -/
def canonicalEncodingLength : Nat := 32

/-- `scalar.Bytes()` / `Encode()` of the 25519 backends: canonical 32-byte
little-endian encoding of the scalar. -/
def scalarBytes (s : Sc25519) : List Nat := natToBytesLE 32 s.val

/-! ## `LessOrEqual` (Ristretto255 / Edwards25519 backends)

Both 25519 backends implement `LessOrEqual(scalar)` identically: they encode
both scalars (32 bytes, little-endian), OR together the strict bytewise
"greater" comparisons `ienc[i] > jenc[i]` over all positions, and return `1`
exactly when no position compared greater.  The byte-length mismatch panic in
the source is dead code here since both encodings always have 32 bytes. -/

/-- Backend `Scalar.LessOrEqual` of the 25519 backends: the loop
`for i--; i >= 0; i-- { res = res || (ienc[i] > jenc[i]) }` followed by
`if res { return 0 }; return 1`. -/
def edLessOrEqual (s t : Sc25519) : Nat :=
  let ienc := scalarBytes s
  let jenc := scalarBytes t
  let res := ((List.range 32).reverse).foldl
    (fun r i => r || decide (jenc.getD i 0 < ienc.getD i 0)) false
  if res then 0 else 1

/-- Public `ecc.Scalar.LessOrEqual`: `nil` comparand is `false`, otherwise the
backend result compared against `1`. -/
def eccScalarLessOrEqual (s : Sc25519) (o : Option Sc25519) : Bool :=
  match o with
  | none => false
  | some t => decide (edLessOrEqual s t = 1)

theorem foldl_or_eq_any (p : Nat → Bool) (l : List Nat) (b : Bool) :
    l.foldl (fun r i => r || p i) b = (b || l.any p) := by
  induction l generalizing b with
  | nil => simp
  | cons x xs ih => simp [List.foldl_cons, ih, Bool.or_assoc]

theorem bytesToNatLE_le_of_pointwise :
    ∀ (l₁ l₂ : List Nat), l₁.length = l₂.length →
      (∀ i, i < l₁.length → l₁.getD i 0 ≤ l₂.getD i 0) →
      bytesToNatLE l₁ ≤ bytesToNatLE l₂ := by
  intro l₁
  induction l₁ with
  | nil => intro l₂ _ _; simp
  | cons b t ih =>
    intro l₂ hlen hpt
    cases l₂ with
    | nil => simp at hlen
    | cons b' t' =>
      have hb : b ≤ b' := by simpa using hpt 0 (by simp)
      have ht : bytesToNatLE t ≤ bytesToNatLE t' := by
        refine ih t' (by simpa using hlen) ?_
        intro i hi
        simpa using hpt (i + 1) (by simpa using Nat.succ_lt_succ hi)
      have := Nat.mul_le_mul_left 256 ht
      simp only [bytesToNatLE_cons]
      omega

theorem edLessOrEqual_eq_one_iff (s t : Sc25519) :
    edLessOrEqual s t = 1 ↔
      ∀ i, i < 32 → s.val / 256 ^ i % 256 ≤ t.val / 256 ^ i % 256 := by
  simp only [edLessOrEqual]
  rw [foldl_or_eq_any]
  simp only [Bool.false_or]
  constructor
  · intro h i hi
    by_contra hlt
    push_neg at hlt
    have hany : ((List.range 32).reverse).any
        (fun i => decide ((scalarBytes t).getD i 0 < (scalarBytes s).getD i 0)) = true := by
      rw [List.any_eq_true]
      refine ⟨i, by simpa using List.mem_range.2 hi, ?_⟩
      rw [decide_eq_true_iff]
      rw [scalarBytes, scalarBytes, getD_natToBytesLE _ _ _ hi, getD_natToBytesLE _ _ _ hi]
      exact hlt
    rw [hany] at h
    simp at h
  · intro h
    have hany : ((List.range 32).reverse).any
        (fun i => decide ((scalarBytes t).getD i 0 < (scalarBytes s).getD i 0)) = false := by
      rw [Bool.eq_false_iff]
      intro hc
      rw [List.any_eq_true] at hc
      obtain ⟨i, hmem, hlt⟩ := hc
      have hi : i < 32 := List.mem_range.1 (by simpa using hmem)
      rw [decide_eq_true_iff, scalarBytes, scalarBytes,
        getD_natToBytesLE _ _ _ hi, getD_natToBytesLE _ _ _ hi] at hlt
      exact absurd (h i hi) (by omega)
    rw [hany]
    simp

theorem val_lt_256_pow (s : Sc25519) : s.val < 256 ^ 32 := by
  have h := ZMod.val_lt s
  have : L < 256 ^ 32 := by norm_num [L]
  omega

/-- C1 (amended): `LessOrEqual` on the 25519 backends is the bytewise
dominance test on the canonical little-endian encodings — it returns `1`
exactly when every byte of the receiver's encoding is `≤` the corresponding
byte of the comparand's encoding.  When it returns `1` the receiver's integer
value is indeed `≤` the comparand's, and the published examples
`Zero ≤ One`, `¬(One ≤ Zero)`, `Two ≤ Two` hold; a `nil` comparand yields
`false` at the public layer.  It is not the total order on integer values. -/
theorem lessOrEqual_bytewise_dominance (s t : Sc25519) :
    (edLessOrEqual s t = 1 ↔
      ∀ i, i < 32 → s.val / 256 ^ i % 256 ≤ t.val / 256 ^ i % 256) ∧
    (edLessOrEqual s t = 1 → s.val ≤ t.val) ∧
    eccScalarLessOrEqual s none = false ∧
    (edLessOrEqual 0 1 = 1 ∧ edLessOrEqual 1 0 = 0 ∧ edLessOrEqual 2 2 = 1) := by
  refine ⟨edLessOrEqual_eq_one_iff s t, ?_, rfl, by decide, by decide, by decide⟩
  intro h
  have hbytes := (edLessOrEqual_eq_one_iff s t).1 h
  have hs : s.val = bytesToNatLE (scalarBytes s) :=
    (bytesToNatLE_natToBytesLE_of_lt (val_lt_256_pow s)).symm
  have ht : t.val = bytesToNatLE (scalarBytes t) :=
    (bytesToNatLE_natToBytesLE_of_lt (val_lt_256_pow t)).symm
  rw [hs, ht]
  refine bytesToNatLE_le_of_pointwise _ _ (by simp [scalarBytes]) ?_
  intro i hi
  have hi32 : i < 32 := by simpa [scalarBytes] using hi
  rw [scalarBytes, scalarBytes, getD_natToBytesLE _ _ _ hi32, getD_natToBytesLE _ _ _ hi32]
  exact hbytes i hi32

/-- Witness for `lessOrEqual_bytewise_dominance` at `s = 2`, `t = 3`. -/
theorem lessOrEqual_bytewise_dominance_witness :
    (2 : Sc25519).val ≤ (3 : Sc25519).val :=
  (lessOrEqual_bytewise_dominance 2 3).2.1 (by decide)

/-- C1 counterexample: the scalars `255` and `256` satisfy `255 ≤ 256` as
integers, yet `LessOrEqual` returns `0` in both directions (byte 0 compares
greater one way, byte 1 the other), so `LessOrEqual` is neither the integer
order nor total. -/
theorem lessOrEqual_not_integer_order :
    (255 : Sc25519).val ≤ (256 : Sc25519).val ∧
    edLessOrEqual 255 256 ≠ 1 ∧ edLessOrEqual 256 255 ≠ 1 := by
  refine ⟨by decide, by decide, by decide⟩

/-! ## Generic `Pow` ladder (Ristretto255 / Edwards25519 backends)

Both 25519 backends implement `Pow` with the same two-accumulator
square-and-multiply ladder over the little-endian canonical encoding of the
exponent: `getMSByte`/`getMSBit` locate the exponent's highest set bit, a
first loop walks the remaining bits of the top byte, a second loop walks all
bits of the lower bytes, and a final branch replaces the result by `One`
when the exponent is zero. -/

/-- Go helper `getMSBit`, scanning bit positions `i, i-1, …, 0` of a byte and
returning the first set position (`0` if none is set). -/
def getMSBitFrom (b : Nat) : Nat → Nat
  | 0 => 0
  | i + 1 => if b &&& (1 <<< (i + 1)) != 0 then i + 1 else getMSBitFrom b i

/-- Go `getMSBit`: most significant set bit of a byte, scanning from 7. -/
def getMSBit (b : Nat) : Nat := getMSBitFrom b 7

/-- Accumulator loop of Go `getMSByte`: remembers the index of the last
non-zero byte seen. -/
def getMSByteAux (msb i : Nat) : List Nat → Nat
  | [] => msb
  | b :: rest => getMSByteAux (if b != 0 then i else msb) (i + 1) rest

/-- Go `getMSByte`: index of the most significant (= last) non-zero byte of a
little-endian byte string, `0` if all bytes are zero. -/
def getMSByte (l : List Nat) : Nat := getMSByteAux 0 0 l

/-- One ladder iteration: on a zero bit `s2 *= s1; s1 *= s1`, on a set bit
`s1 *= s2; s2 *= s2` (each write reads the pre-iteration values, as the two
sequential in-place updates in the source do). -/
def powStep (p : Sc25519 × Sc25519) (bit : Bool) : Sc25519 × Sc25519 :=
  if bit then (p.1 * p.2, p.2 * p.2) else (p.1 * p.1, p.2 * p.1)

/-- The bits `b & (1 << j) != 0` of a byte for `j = n-1, …, 0`, in the order
the `Pow` loops visit them. -/
def byteBitsDown (b n : Nat) : List Bool :=
  ((List.range n).reverse).map (fun j => b &&& (1 <<< j) != 0)

/-- The full ladder-controlling bit sequence of `Pow`: bits `msbit-1 … 0` of
byte `msbyte`, then bits `7 … 0` of each lower byte. -/
def ladderBits (bytes : List Nat) (msbyte msbit : Nat) : List Bool :=
  byteBitsDown (bytes.getD msbyte 0) msbit ++
    ((List.range msbyte).reverse).flatMap (fun i => byteBitsDown (bytes.getD i 0) 8)

/-- Backend `Scalar.Pow` of the 25519 backends: `s1 = s; s2 = s²`, the ladder
over `ladderBits`, then the zero-exponent fixup `if scalar.IsZero() { s1.One() }`
and `s.set(s1)`. -/
def edPow (s e : Sc25519) : Sc25519 :=
  let bytes := scalarBytes e
  let msbyte := getMSByte bytes
  let msbit := getMSBit (bytes.getD msbyte 0)
  let p := (ladderBits bytes msbyte msbit).foldl powStep (s, s * s)
  if e = 0 then 1 else p.1

/-- Public `ecc.Scalar.Pow`: a `nil` exponent sets the receiver to `One`,
otherwise the backend ladder runs. -/
def eccScalarPow (s : Sc25519) (o : Option Sc25519) : Sc25519 :=
  match o with
  | none => 1
  | some e => edPow s e

/-- The bits of `v` at positions `n-1, …, 0` (most significant first). -/
def bitsDown (v n : Nat) : List Bool :=
  ((List.range n).reverse).map v.testBit

theorem goBit_eq_testBit (b j : Nat) : (b &&& (1 <<< j) != 0) = b.testBit j := by
  rw [Nat.shiftLeft_eq, one_mul, Nat.and_two_pow]
  cases h : b.testBit j
  · simp [h]
  · have h2 : (2 : Nat) ^ j ≠ 0 := Nat.pos_iff_ne_zero.mp (pow_pos (by norm_num) j)
    simp [h, h2]

theorem bitsDown_succ (v n : Nat) :
    bitsDown v (n + 1) = v.testBit n :: bitsDown v n := by
  simp [bitsDown, List.range_succ]

theorem byteBitsDown_byte (v i n : Nat) (hn : n ≤ 8) (hi : i < 32) :
    byteBitsDown ((natToBytesLE 32 v).getD i 0) n =
      ((List.range n).reverse).map (fun j => v.testBit (8 * i + j)) := by
  rw [byteBitsDown, getD_natToBytesLE _ _ _ hi]
  refine List.map_congr_left ?_
  intro j hj
  have hj8 : j < 8 := by
    have := List.mem_range.1 (List.mem_reverse.1 hj)
    omega
  rw [goBit_eq_testBit]
  have h256i : (256 : Nat) ^ i = 2 ^ (8 * i) := by
    rw [show (256 : Nat) = 2 ^ 8 by norm_num, ← pow_mul, mul_comm]
  have h2568 : (256 : Nat) = 2 ^ 8 := by norm_num
  rw [h256i, h2568, ← Nat.shiftRight_eq_div_pow, Nat.testBit_mod_two_pow,
    Nat.testBit_shiftRight]
  simp [hj8]

theorem bitsDown_add (v n m : Nat) :
    bitsDown v (n + m) =
      ((List.range m).reverse).map (fun j => v.testBit (n + j)) ++ bitsDown v n := by
  simp only [bitsDown, List.range_add, List.reverse_append, List.map_append,
    List.map_reverse, List.map_map]
  rfl

theorem flatMap_byteBits (v m : Nat) (hm : m ≤ 32) :
    ((List.range m).reverse).flatMap
        (fun i => byteBitsDown ((natToBytesLE 32 v).getD i 0) 8) =
      bitsDown v (8 * m) := by
  induction m with
  | zero => simp [bitsDown]
  | succ k ih =>
    have hk : k ≤ 32 := by omega
    have hk32 : k < 32 := by omega
    rw [List.range_succ, List.reverse_append]
    simp only [List.reverse_cons, List.reverse_nil, List.nil_append,
      List.flatMap_cons, List.singleton_append]
    rw [ih hk, byteBitsDown_byte v k 8 (le_refl 8) hk32]
    have : 8 * (k + 1) = 8 * k + 8 := by ring
    rw [this, bitsDown_add]

set_option maxRecDepth 4096 in
theorem getMSBit_spec :
    ∀ b : Nat, b < 256 → b ≠ 0 →
      getMSBit b < 8 ∧ 2 ^ getMSBit b ≤ b ∧ b < 2 ^ (getMSBit b + 1) := by
  decide


theorem getMSByteAux_spec :
    ∀ (l : List Nat) (msb i : Nat),
      (getMSByteAux msb i l = msb ∧ ∀ b ∈ l, b = 0) ∨
      (∃ j, j < l.length ∧ getMSByteAux msb i l = i + j ∧ l.getD j 0 ≠ 0 ∧
        ∀ j', j < j' → j' < l.length → l.getD j' 0 = 0) := by
  intro l
  induction l with
  | nil => intro msb i; exact Or.inl ⟨rfl, by simp⟩
  | cons b t ih =>
    intro msb i
    rcases ih (if b != 0 then i else msb) (i + 1) with ⟨heq, hall⟩ | ⟨j, hj, heq, hne, habove⟩
    · by_cases hb : b = 0
      · refine Or.inl ⟨?_, ?_⟩
        · simpa [getMSByteAux, hb] using heq
        · intro x hx
          rcases List.mem_cons.1 hx with h | h
          · exact h ▸ hb
          · exact hall x h
      · refine Or.inr ⟨0, by simp, ?_, by simpa using hb, ?_⟩
        · simpa [getMSByteAux, hb] using heq
        · intro j' hj' hlen
          cases j' with
          | zero => omega
          | succ k =>
            have hk : k < t.length := by simpa using hlen
            rw [List.getD_cons_succ, List.getD_eq_getElem t 0 hk]
            exact hall _ (List.getElem_mem hk)
    · refine Or.inr ⟨j + 1, by simpa using hj, ?_, by simpa using hne, ?_⟩
      · rw [show i + (j + 1) = (i + 1) + j by omega, ← heq]
        simp [getMSByteAux]
      · intro j' hj' hlen
        cases j' with
        | zero => omega
        | succ k =>
          rw [List.getD_cons_succ]
          exact habove k (by omega) (by simpa using hlen)

theorem div_pow_zero_of_bytes_zero :
    ∀ (k v a : Nat), v / 256 ^ (a + k) = 0 →
      (∀ i, a ≤ i → i < a + k → v / 256 ^ i % 256 = 0) → v / 256 ^ a = 0 := by
  intro k
  induction k with
  | zero => intro v a h _; simpa using h
  | succ n ih =>
    intro v a htop hbytes
    have h1 : v / 256 ^ (a + 1) = 0 := by
      refine ih v (a + 1) (by rw [show a + 1 + n = a + (n + 1) by omega]; exact htop) ?_
      intro i hi hi'
      exact hbytes i (by omega) (by omega)
    have h2 : v / 256 ^ a % 256 = 0 := hbytes a (le_refl a) (by omega)
    have h3 : v / 256 ^ (a + 1) = v / 256 ^ a / 256 := by
      rw [Nat.div_div_eq_div_mul, pow_succ]
    omega

/-- For a non-zero value below `256^32`, `getMSByte`/`getMSBit` applied to its
32-byte little-endian encoding locate exactly its most significant set bit. -/
theorem msb_char (v : Nat) (hv : v ≠ 0) (hlt : v < 256 ^ 32) :
    getMSByte (natToBytesLE 32 v) < 32 ∧
      2 ^ (8 * getMSByte (natToBytesLE 32 v) +
            getMSBit ((natToBytesLE 32 v).getD (getMSByte (natToBytesLE 32 v)) 0)) ≤ v ∧
      v < 2 ^ (8 * getMSByte (natToBytesLE 32 v) +
            getMSBit ((natToBytesLE 32 v).getD (getMSByte (natToBytesLE 32 v)) 0) + 1) := by
  have hlen : (natToBytesLE 32 v).length = 32 := length_natToBytesLE 32 v
  rcases getMSByteAux_spec (natToBytesLE 32 v) 0 0 with ⟨_, hall⟩ | ⟨j, hj, heq, hne, habove⟩
  · exfalso
    have : bytesToNatLE (natToBytesLE 32 v) = 0 := (bytesToNatLE_eq_zero_iff _).2 hall
    rw [bytesToNatLE_natToBytesLE_of_lt hlt] at this
    exact hv this
  · have hm : getMSByte (natToBytesLE 32 v) = j := by simpa [getMSByte] using heq
    have hj32 : j < 32 := by omega
    -- all bytes above j are zero, so v < 256^(j+1)
    have hdivzero : v / 256 ^ (j + 1) = 0 := by
      refine div_pow_zero_of_bytes_zero (31 - j) v (j + 1)
        (by rw [show j + 1 + (31 - j) = 32 by omega]; exact Nat.div_eq_of_lt hlt) ?_
      intro i hi hi'
      have hi32 : i < 32 := by omega
      have := habove i (by omega) (by omega)
      rwa [getD_natToBytesLE _ _ _ hi32] at this
    have hvj : v < 256 ^ (j + 1) := by
      have hpos : 0 < 256 ^ (j + 1) := pow_pos (by norm_num) _
      exact (Nat.div_eq_zero_iff hpos).1 hdivzero
    set q := v / 256 ^ j with hq
    have hq256 : q < 256 := by
      rw [hq]
      rw [Nat.div_lt_iff_lt_mul (pow_pos (by norm_num) j)]
      calc v < 256 ^ (j + 1) := hvj
        _ = 256 ^ j * 256 := by rw [pow_succ]
        _ ≤ 256 * 256 ^ j := by rw [mul_comm]
    have hbyte : (natToBytesLE 32 v).getD j 0 = q := by
      rw [getD_natToBytesLE _ _ _ hj32, Nat.mod_eq_of_lt hq256]
    have hqne : q ≠ 0 := by
      intro h
      exact hne (by rw [hbyte, h])
    obtain ⟨ht8, htle, htlt⟩ := getMSBit_spec q hq256 hqne
    set t := getMSBit q with htdef
    have hmod : v = 256 ^ j * q + v % 256 ^ j := (Nat.div_add_mod v (256 ^ j)).symm
    have hrem : v % 256 ^ j < 256 ^ j := Nat.mod_lt _ (pow_pos (by norm_num) j)
    have h256j : (256 : Nat) ^ j = 2 ^ (8 * j) := by
      rw [show (256 : Nat) = 2 ^ 8 by norm_num, ← pow_mul]
    refine ⟨by rw [hm]; omega, ?_, ?_⟩
    · rw [hm, hbyte, ← htdef]
      calc 2 ^ (8 * j + t) = 2 ^ (8 * j) * 2 ^ t := by rw [pow_add]
        _ ≤ 2 ^ (8 * j) * q := Nat.mul_le_mul_left _ htle
        _ = 256 ^ j * q := by rw [h256j]
        _ ≤ v := by omega
    · rw [hm, hbyte, ← htdef]
      calc v = 256 ^ j * q + v % 256 ^ j := hmod
        _ < 256 ^ j * q + 256 ^ j := by omega
        _ = 256 ^ j * (q + 1) := by ring
        _ ≤ 256 ^ j * 2 ^ (t + 1) := Nat.mul_le_mul_left _ (by omega)
        _ = 2 ^ (8 * j + (t + 1)) := by rw [h256j, ← pow_add]
        _ = 2 ^ (8 * j + t + 1) := by ring_nf

theorem getMSBitFrom_le (b : Nat) : ∀ i, getMSBitFrom b i ≤ i := by
  intro i
  induction i with
  | zero => simp [getMSBitFrom]
  | succ n ih =>
    rw [getMSBitFrom]
    by_cases h : (b &&& (1 <<< (n + 1)) != 0) = true
    · simp [h]
    · simp only [Bool.not_eq_true] at h
      simp [h]
      omega

theorem foldl_powStep_bitsDown (s : Sc25519) (v : Nat) :
    ∀ (n a : Nat),
      (bitsDown v n).foldl powStep (s ^ a, s ^ (a + 1)) =
        (s ^ (a * 2 ^ n + v % 2 ^ n), s ^ (a * 2 ^ n + v % 2 ^ n + 1)) := by
  intro n
  induction n with
  | zero =>
    intro a
    simp [bitsDown, Nat.mod_one]
  | succ n ih =>
    intro a
    rw [bitsDown_succ, List.foldl_cons]
    have hmod : v % 2 ^ (n + 1) = v % 2 ^ n + 2 ^ n * (v / 2 ^ n % 2) := by
      rw [pow_succ, Nat.mod_mul]
    have hdm : v.testBit n = decide (v / 2 ^ n % 2 = 1) := Nat.testBit_to_div_mod
    cases h : v.testBit n with
    | true =>
      have hbit : v / 2 ^ n % 2 = 1 := by
        rw [h] at hdm
        simpa using hdm.symm
      have h1 : s ^ a * s ^ (a + 1) = s ^ (2 * a + 1) := by
        rw [← pow_add]; congr 1; omega
      have h2 : s ^ (a + 1) * s ^ (a + 1) = s ^ (2 * a + 1 + 1) := by
        rw [← pow_add]; congr 1; omega
      have hstep : powStep (s ^ a, s ^ (a + 1)) true =
          (s ^ (2 * a + 1), s ^ (2 * a + 1 + 1)) := by
        simp [powStep, h1, h2]
      rw [hstep, ih (2 * a + 1)]
      have harith : (2 * a + 1) * 2 ^ n + v % 2 ^ n = a * 2 ^ (n + 1) + v % 2 ^ (n + 1) := by
        rw [hmod, hbit, pow_succ]
        ring
      rw [harith]
    | false =>
      have hbit : v / 2 ^ n % 2 = 0 := by
        rw [h] at hdm
        have h2 : v / 2 ^ n % 2 < 2 := Nat.mod_lt _ (by norm_num)
        have := of_decide_eq_false hdm.symm
        omega
      have h1 : s ^ a * s ^ a = s ^ (2 * a) := by
        rw [← pow_add]; congr 1; omega
      have h2 : s ^ (a + 1) * s ^ a = s ^ (2 * a + 1) := by
        rw [← pow_add]; congr 1; omega
      have hstep : powStep (s ^ a, s ^ (a + 1)) false =
          (s ^ (2 * a), s ^ (2 * a + 1)) := by
        simp [powStep, h1, h2]
      rw [hstep, ih (2 * a)]
      have harith : 2 * a * 2 ^ n + v % 2 ^ n = a * 2 ^ (n + 1) + v % 2 ^ (n + 1) := by
        rw [hmod, hbit, pow_succ]
        ring
      rw [harith]

theorem pow_decomp (v k : Nat) (h1 : 2 ^ k ≤ v) (h2 : v < 2 ^ (k + 1)) :
    1 * 2 ^ k + v % 2 ^ k = v := by
  have hdiv : v / 2 ^ k = 1 := by
    refine Nat.div_eq_of_lt_le (by rw [one_mul]; exact h1) ?_
    rw [show (1 + 1) * 2 ^ k = 2 ^ (k + 1) by rw [pow_succ]; ring]
    exact h2
  have hdm := Nat.div_add_mod v (2 ^ k)
  rw [hdiv, mul_one] at hdm
  omega

/-- C3: for every scalar `s` and non-zero exponent `e`, the two-accumulator
square-and-multiply ladder of `Pow`, processed most-significant-bit-first
from the exponent's highest set bit, computes exactly `s ^ e` in the scalar
field — i.e. reference modular exponentiation modulo the group order. -/
theorem edPow_spec (s e : Sc25519) (he : e ≠ 0) : edPow s e = s ^ e.val := by
  have hv : e.val ≠ 0 := fun h => he ((ZMod.val_eq_zero e).1 h)
  have hlt : e.val < 256 ^ 32 := val_lt_256_pow e
  obtain ⟨hm32, hle, hlt2⟩ := msb_char e.val hv hlt
  have ht8 : getMSBit ((natToBytesLE 32 e.val).getD (getMSByte (natToBytesLE 32 e.val)) 0) ≤ 8 :=
    le_trans (getMSBitFrom_le _ 7) (by norm_num)
  have hbits : ladderBits (natToBytesLE 32 e.val) (getMSByte (natToBytesLE 32 e.val))
      (getMSBit ((natToBytesLE 32 e.val).getD (getMSByte (natToBytesLE 32 e.val)) 0)) =
      bitsDown e.val (8 * getMSByte (natToBytesLE 32 e.val) +
        getMSBit ((natToBytesLE 32 e.val).getD (getMSByte (natToBytesLE 32 e.val)) 0)) := by
    rw [ladderBits]
    rw [byteBitsDown_byte e.val _ _ ht8 hm32]
    rw [flatMap_byteBits e.val _ (le_of_lt hm32)]
    rw [bitsDown_add]
  have hfold := foldl_powStep_bitsDown s e.val
    (8 * getMSByte (natToBytesLE 32 e.val) +
      getMSBit ((natToBytesLE 32 e.val).getD (getMSByte (natToBytesLE 32 e.val)) 0)) 1
  rw [pow_one, show s ^ (1 + 1) = s * s by rw [pow_add, pow_one]] at hfold
  simp only [edPow, scalarBytes]
  rw [if_neg he, hbits, hfold]
  rw [pow_decomp e.val _ hle hlt2]

/-- Witness for `edPow_spec` at base `3`, exponent `5`. -/
theorem edPow_spec_witness :
    ((5 : Sc25519) ≠ 0) ∧ edPow 3 5 = (3 : Sc25519) ^ (5 : Sc25519).val :=
  ⟨by decide, edPow_spec 3 5 (by decide)⟩

/-- C4: `Pow(nil)` and `Pow(zero)` both yield `One` (also when the base is
zero), and `Pow(one)` leaves the base unchanged: the nil guard of the public
wrapper returns `One`, the ladder's zero-exponent fixup branch returns `One`,
and on exponent one the ladder runs zero iterations and returns the base. -/
theorem eccScalarPow_degenerate (s : Sc25519) :
    eccScalarPow s none = 1 ∧ eccScalarPow s (some 0) = 1 ∧
      eccScalarPow s (some 1) = s := by
  refine ⟨rfl, ?_, ?_⟩
  · simp [eccScalarPow, edPow]
  · have h1 : (1 : Sc25519) ≠ 0 := one_ne_zero
    have := edPow_spec s 1 h1
    rw [ZMod.val_one, pow_one] at this
    simpa [eccScalarPow] using this

/-! ## Scalar `Decode` / `Encode` (25519 backends)

`decodeScalar` mirrors the backend `decodeScalar` of the Edwards25519 and
Ristretto255 backends: empty input fails with `ErrParamNilScalar`, any other
length different from `canonicalEncodingLength` fails with
`ErrParamScalarLength`, and the backend `SetCanonicalBytes`/`Decode` call
(external library, canonical-encoding contract: accept exactly the 32-byte
little-endian strings whose value is below the group order, leaving the
receiver untouched on rejection) fails with its invalid-encoding error when
the decoded magnitude is `≥ L`.  The state-passing pair returns the receiver
unchanged on every failure. -/

/-- The three distinct scalar-decoding failures of the backend sources. -/
inductive ScalarDecodeError where
  | nilScalar
  | scalarLength
  | invalidEncoding
  deriving DecidableEq

/-- Backend `Scalar.Decode`/`decodeScalar` of the 25519 backends as a
state-passing function: updated receiver plus optional error. -/
def decodeScalar (s : Sc25519) (data : List Nat) : Sc25519 × Option ScalarDecodeError :=
  if data.length = 0 then (s, some .nilScalar)
  else if data.length ≠ canonicalEncodingLength then (s, some .scalarLength)
  else if bytesToNatLE data < L then (((bytesToNatLE data : Nat) : Sc25519), none)
  else (s, some .invalidEncoding)

/-- C6 (amended): `Decode` succeeds exactly on 32-byte inputs whose decoded
magnitude is below the group order; the empty input fails with the
nil-scalar error (not the wrong-length error); every other input of length
`≠ 32` fails with the wrong-length error; full-length non-canonical inputs
(magnitude `≥` order) fail with the invalid-encoding error; and the receiver
is unchanged whenever decoding fails. -/
theorem decodeScalar_char (s : Sc25519) (data : List Nat) :
    ((decodeScalar s data).2 = none ↔
        data.length = 32 ∧ bytesToNatLE data < L) ∧
    ((decodeScalar s data).2 = some .nilScalar ↔ data = []) ∧
    ((decodeScalar s data).2 = some .scalarLength ↔
        data ≠ [] ∧ data.length ≠ 32) ∧
    ((decodeScalar s data).2 = some .invalidEncoding ↔
        data.length = 32 ∧ L ≤ bytesToNatLE data) ∧
    ((decodeScalar s data).2 ≠ none → (decodeScalar s data).1 = s) := by
  by_cases h0 : data.length = 0
  · have hnil : data = [] := List.length_eq_zero.1 h0
    subst hnil
    simp [decodeScalar]
  · have hne : data ≠ [] := fun h => h0 (by simp [h])
    by_cases h32 : data.length = 32
    · by_cases hval : bytesToNatLE data < L
      · simp [decodeScalar, h0, h32, canonicalEncodingLength, hval, hne]
      · simp [decodeScalar, h0, h32, canonicalEncodingLength, hval, hne]
        omega
    · simp [decodeScalar, h0, h32, canonicalEncodingLength, hne]

/-- Witness for `decodeScalar_char` at the length-2 input `[1, 2]`. -/
theorem decodeScalar_char_witness :
    (decodeScalar 0 [1, 2]).2 = some ScalarDecodeError.scalarLength :=
  (decodeScalar_char 0 [1, 2]).2.2.1.mpr ⟨by decide, by decide⟩

/-- C6 counterexample: the empty input has a byte count different from the
canonical scalar length, yet `Decode` fails with the nil-scalar error, which
is a different error value than the wrong-length error. -/
theorem decodeScalar_empty_error :
    (decodeScalar 0 []).2 = some ScalarDecodeError.nilScalar ∧
      ScalarDecodeError.nilScalar ≠ ScalarDecodeError.scalarLength :=
  ⟨rfl, by decide⟩

/-- `Group.ScalarLength()` of the 25519 backends. -/
def ristrettoScalarLength : Nat := canonicalEncodingLength

/-- C7: encode/decode round-trip — decoding the canonical encoding of any
scalar succeeds (into any receiver) and returns that scalar, and the
encoding always has exactly `ScalarLength = 32` bytes. -/
theorem scalar_encode_decode_roundtrip (s t : Sc25519) :
    decodeScalar t (scalarBytes s) = (s, none) ∧
      (scalarBytes s).length = ristrettoScalarLength := by
  have hlen : (scalarBytes s).length = 32 := by
    rw [scalarBytes, length_natToBytesLE]
  have hval : bytesToNatLE (scalarBytes s) = s.val :=
    bytesToNatLE_natToBytesLE_of_lt (val_lt_256_pow s)
  have hcast : ((bytesToNatLE (scalarBytes s) : Nat) : Sc25519) = s := by
    rw [hval]
    exact ZMod.natCast_rightInverse s
  refine ⟨?_, by rw [hlen]; rfl⟩
  rw [decodeScalar, if_neg (by omega), if_neg (by rw [hlen]; simp [canonicalEncodingLength]),
    if_pos (by rw [hval]; exact ZMod.val_lt s), hcast]

/-! ## `UInt64` / `SetUInt64`

The Edwards25519/Ristretto255 backends check that the 24 bytes above the low
8 of the little-endian encoding OR to zero and read the low 8 bytes as a
little-endian `uint64`; the Secp256k1 backend stores big-endian canonical
bytes and symmetrically checks the first `scalarLength - 8` bytes and reads
the trailing 8 big-endian.  `SetUInt64` writes the 8 little-endian bytes of
the value into a fresh 32-byte encoding and decodes it (25519 backends), or
delegates to the backend which sets the value modulo the order (secp256k1). -/

/-- The `internal.ErrUInt64TooBig` failure. -/
inductive UInt64Error where
  | tooBig
  deriving DecidableEq

theorem lor_eq_zero_iff (x y : Nat) : x ||| y = 0 ↔ x = 0 ∧ y = 0 := by
  constructor
  · intro h
    have hx : x = 0 := by
      refine Nat.eq_of_testBit_eq fun i => ?_
      have := congrArg (fun z => z.testBit i) h
      simp only [Nat.testBit_or, Nat.zero_testBit] at this
      simp [Bool.or_eq_false_iff.1 this |>.1]
    have hy : y = 0 := by
      refine Nat.eq_of_testBit_eq fun i => ?_
      have := congrArg (fun z => z.testBit i) h
      simp only [Nat.testBit_or, Nat.zero_testBit] at this
      simp [Bool.or_eq_false_iff.1 this |>.2]
    exact ⟨hx, hy⟩
  · rintro ⟨rfl, rfl⟩
    simp

theorem foldl_lor_eq_zero_iff :
    ∀ (l : List Nat) (a : Nat),
      l.foldl (fun acc x => acc ||| x) a = 0 ↔ a = 0 ∧ ∀ x ∈ l, x = 0 := by
  intro l
  induction l with
  | nil => intro a; simp
  | cons b t ih =>
    intro a
    rw [List.foldl_cons, ih]
    rw [lor_eq_zero_iff]
    constructor
    · rintro ⟨⟨ha, hb⟩, ht⟩
      exact ⟨ha, fun x hx => by
        rcases List.mem_cons.1 hx with h | h
        · exact h ▸ hb
        · exact ht x h⟩
    · rintro ⟨ha, hall⟩
      exact ⟨⟨ha, hall b (List.mem_cons_self ..)⟩, fun x hx => hall x (List.mem_cons_of_mem _ hx)⟩

/-- Backend `Scalar.UInt64` of the 25519 backends (little-endian):
OR together `b[8:]`, fail with `ErrUInt64TooBig` unless zero, else read
`b[:8]` little-endian. -/
def edUInt64 (s : Sc25519) : Except UInt64Error Nat :=
  let b := scalarBytes s
  let overflows := (b.drop 8).foldl (fun acc x => acc ||| x) 0
  if overflows ≠ 0 then .error .tooBig
  else .ok (bytesToNatLE (b.take 8))

/-- Backend `Scalar.SetUInt64` of the 25519 backends: write the 8
little-endian bytes of the `uint64` into a fresh 32-byte encoding
(`binary.LittleEndian.PutUint64`) and decode it (which never fails, since
every `uint64` is below the order). -/
def edSetUInt64 (s : Sc25519) (i : Nat) : Sc25519 :=
  let encoded := natToBytesLE 8 (i % 2 ^ 64) ++ List.replicate 24 0
  (decodeScalar s encoded).1

theorem bytesToNatLE_append (l₁ l₂ : List Nat) :
    bytesToNatLE (l₁ ++ l₂) = bytesToNatLE l₁ + 256 ^ l₁.length * bytesToNatLE l₂ := by
  induction l₁ with
  | nil => simp
  | cons b t ih =>
    simp only [List.cons_append, bytesToNatLE_cons, ih, List.length_cons, pow_succ]
    ring

theorem edUInt64_of_lt (s : Sc25519) (h : s.val < 2 ^ 64) : edUInt64 s = .ok s.val := by
  have h64 : (2 : Nat) ^ 64 = 256 ^ 8 := by norm_num
  have hdrop : (scalarBytes s).drop 8 = natToBytesLE 24 (s.val / 256 ^ 8) := by
    rw [scalarBytes, drop_natToBytesLE 8 32 _ (by norm_num)]
  have hdiv : s.val / 256 ^ 8 = 0 := Nat.div_eq_of_lt (h64 ▸ h)
  have hover : ((scalarBytes s).drop 8).foldl (fun acc x => acc ||| x) 0 = 0 := by
    rw [hdrop, hdiv, foldl_lor_eq_zero_iff]
    refine ⟨rfl, fun x hx => ?_⟩
    have := bytesToNatLE_eq_zero_iff (natToBytesLE 24 0)
    rw [bytesToNatLE_natToBytesLE] at this
    exact (this.1 (by simp)) x hx
  have htake : bytesToNatLE ((scalarBytes s).take 8) = s.val := by
    rw [scalarBytes, take_natToBytesLE 8 32 _ (by norm_num),
      bytesToNatLE_natToBytesLE, Nat.mod_eq_of_lt (h64 ▸ h)]
  simp only [edUInt64]
  rw [hover]
  simp [htake]

theorem edUInt64_of_ge (s : Sc25519) (h : 2 ^ 64 ≤ s.val) :
    edUInt64 s = .error .tooBig := by
  have h64 : (2 : Nat) ^ 64 = 256 ^ 8 := by norm_num
  have hdrop : (scalarBytes s).drop 8 = natToBytesLE 24 (s.val / 256 ^ 8) := by
    rw [scalarBytes, drop_natToBytesLE 8 32 _ (by norm_num)]
  have hdiv : s.val / 256 ^ 8 ≠ 0 := by
    intro hc
    have := (Nat.div_eq_zero_iff (pow_pos (by norm_num) 8)).1 hc
    omega
  have hover : ((scalarBytes s).drop 8).foldl (fun acc x => acc ||| x) 0 ≠ 0 := by
    rw [hdrop]
    intro hc
    obtain ⟨-, hall⟩ := (foldl_lor_eq_zero_iff _ 0).1 hc
    have hz : bytesToNatLE (natToBytesLE 24 (s.val / 256 ^ 8)) = 0 :=
      (bytesToNatLE_eq_zero_iff _).2 hall
    rw [bytesToNatLE_natToBytesLE] at hz
    have hlt24 : s.val / 256 ^ 8 < 256 ^ 24 := by
      have := val_lt_256_pow s
      have : s.val / 256 ^ 8 < 256 ^ 32 / 256 ^ 8 + 1 := by
        have := Nat.div_le_div_right (c := 256 ^ 8) (le_of_lt (val_lt_256_pow s))
        omega
      have hpow : (256 : Nat) ^ 32 / 256 ^ 8 = 256 ^ 24 := by
        rw [Nat.pow_div (by norm_num) (by norm_num)]
      omega
    rw [Nat.mod_eq_of_lt hlt24] at hz
    exact hdiv hz
  simp only [edUInt64]
  rw [if_pos hover]

theorem edSetUInt64_val (s : Sc25519) (i : Nat) (hi : i < 2 ^ 64) :
    (edSetUInt64 s i).val = i := by
  have h64 : (2 : Nat) ^ 64 = 256 ^ 8 := by norm_num
  have hmod : i % 2 ^ 64 = i := Nat.mod_eq_of_lt hi
  have hzero : bytesToNatLE (List.replicate 24 0) = 0 :=
    (bytesToNatLE_eq_zero_iff _).2 fun x hx => List.eq_of_mem_replicate hx
  have hval : bytesToNatLE (natToBytesLE 8 (i % 2 ^ 64) ++ List.replicate 24 0) = i := by
    rw [bytesToNatLE_append, hzero, mul_zero, add_zero, hmod,
      bytesToNatLE_natToBytesLE_of_lt (h64 ▸ hi)]
  have hlen : (natToBytesLE 8 (i % 2 ^ 64) ++ List.replicate 24 0).length = 32 := by
    rw [List.length_append, length_natToBytesLE, List.length_replicate]
  have hiL : i < L := lt_trans hi (by norm_num [L])
  simp only [edSetUInt64]
  rw [decodeScalar, if_neg (by omega), if_neg (by rw [hlen]; simp [canonicalEncodingLength]),
    if_pos (by rw [hval]; exact hiL)]
  rw [hval, ZMod.val_natCast, Nat.mod_eq_of_lt hiL]

theorem ed_high_zero_iff (s : Sc25519) :
    (∀ x ∈ (scalarBytes s).drop 8, x = 0) ↔ s.val < 2 ^ 64 := by
  have h64 : (2 : Nat) ^ 64 = 256 ^ 8 := by norm_num
  have hdrop : (scalarBytes s).drop 8 = natToBytesLE 24 (s.val / 256 ^ 8) := by
    rw [scalarBytes, drop_natToBytesLE 8 32 _ (by norm_num)]
  have hlt24 : s.val / 256 ^ 8 < 256 ^ 24 := by
    have hv := val_lt_256_pow s
    have h1 : s.val / 256 ^ 8 ≤ 256 ^ 32 / 256 ^ 8 := Nat.div_le_div_right (le_of_lt hv)
    have hpow : (256 : Nat) ^ 32 / 256 ^ 8 = 256 ^ 24 := by
      rw [Nat.pow_div (by norm_num) (by norm_num)]
    rcases Nat.lt_or_ge (s.val / 256 ^ 8) (256 ^ 24) with h | h
    · exact h
    · exfalso
      have : 256 ^ 24 * 256 ^ 8 ≤ s.val := by
        calc 256 ^ 24 * 256 ^ 8 ≤ s.val / 256 ^ 8 * 256 ^ 8 :=
              Nat.mul_le_mul_right _ h
          _ ≤ s.val := Nat.div_mul_le_self ..
      rw [← pow_add] at this
      norm_num at this
      omega
  rw [hdrop]
  constructor
  · intro hall
    have hz := (bytesToNatLE_eq_zero_iff _).2 hall
    rw [bytesToNatLE_natToBytesLE, Nat.mod_eq_of_lt hlt24] at hz
    have := (Nat.div_eq_zero_iff (pow_pos (by norm_num : (0:Nat) < 256) 8)).1 hz
    omega
  · intro hlt
    have hdiv : s.val / 256 ^ 8 = 0 := Nat.div_eq_of_lt (h64 ▸ hlt)
    rw [hdiv]
    intro x hx
    have := (bytesToNatLE_eq_zero_iff (natToBytesLE 24 0)).1
      (by rw [bytesToNatLE_natToBytesLE]; simp)
    exact this x hx

/-- Order of the Secp256k1 scalar field (the group order of the external
`secp256k1` arithmetic backend). -/
def N : Nat := 115792089237316195423570985008687907852837564279074904382605163141518161494337

/-- Scalars of the Secp256k1 backend: canonical residues modulo `N`. -/
abbrev ScSecp := ZMod N

instance : NeZero N := ⟨by norm_num [N]⟩

/-- `scalarLength` of the secp256k1 backend. -/
def scalarLength : Nat := 32

/-- Big-endian base-256 encoding on `len` bytes. -/
def natToBytesBE (len v : Nat) : List Nat := (natToBytesLE len v).reverse

/-- The integer value of a big-endian base-256 byte string. -/
def bytesToNatBE (l : List Nat) : Nat := bytesToNatLE l.reverse

/-- `Scalar.Encode()` of the secp256k1 backend: canonical 32-byte big-endian
encoding (external backend, canonical-encoding contract). -/
def secpEncode (s : ScSecp) : List Nat := natToBytesBE 32 s.val

/-- Modelled from the spec: the external secp256k1 backend's `SetUInt64`
"sets s to i modulo the field order" (source doc comment); the argument is a
`uint64`. -/
def secpSetUInt64 (i : Nat) : ScSecp := ((i % 2 ^ 64 : Nat) : ScSecp)

/-- Backend `Scalar.UInt64` of the secp256k1 backend (big-endian): OR
together `b[:scalarLength-8]`, fail with `ErrUInt64TooBig` unless zero, else
read `b[scalarLength-8:]` big-endian. -/
def secpUInt64 (s : ScSecp) : Except UInt64Error Nat :=
  let b := secpEncode s
  let overflows := (b.take (scalarLength - 8)).foldl (fun acc x => acc ||| x) 0
  if overflows ≠ 0 then .error .tooBig
  else .ok (bytesToNatBE (b.drop (scalarLength - 8)))

theorem secp_val_lt_256_pow (s : ScSecp) : s.val < 256 ^ 32 := by
  have h := ZMod.val_lt s
  have : N < 256 ^ 32 := by norm_num [N]
  omega

theorem secp_take_drop (s : ScSecp) :
    (secpEncode s).take (scalarLength - 8) = (natToBytesLE 24 (s.val / 256 ^ 8)).reverse ∧
    (secpEncode s).drop (scalarLength - 8) = (natToBytesLE 8 s.val).reverse := by
  have hlen : (natToBytesLE 32 s.val).length = 32 := length_natToBytesLE ..
  constructor
  · rw [secpEncode, natToBytesBE, scalarLength, List.take_reverse, hlen]
    rw [show (32 : Nat) - (32 - 8) = 8 by norm_num,
      drop_natToBytesLE 8 32 _ (by norm_num)]
  · rw [secpEncode, natToBytesBE, scalarLength, List.drop_reverse, hlen]
    rw [show (32 : Nat) - (32 - 8) = 8 by norm_num,
      take_natToBytesLE 8 32 _ (by norm_num)]

theorem secp_high_zero_iff (s : ScSecp) :
    (∀ x ∈ (secpEncode s).take (scalarLength - 8), x = 0) ↔ s.val < 2 ^ 64 := by
  have h64 : (2 : Nat) ^ 64 = 256 ^ 8 := by norm_num
  rw [(secp_take_drop s).1]
  have hlt24 : s.val / 256 ^ 8 < 256 ^ 24 := by
    have hv := secp_val_lt_256_pow s
    rcases Nat.lt_or_ge (s.val / 256 ^ 8) (256 ^ 24) with h | h
    · exact h
    · exfalso
      have : 256 ^ 24 * 256 ^ 8 ≤ s.val := by
        calc 256 ^ 24 * 256 ^ 8 ≤ s.val / 256 ^ 8 * 256 ^ 8 :=
              Nat.mul_le_mul_right _ h
          _ ≤ s.val := Nat.div_mul_le_self ..
      rw [← pow_add] at this
      norm_num at this
      omega
  constructor
  · intro hall
    have hall' : ∀ x ∈ natToBytesLE 24 (s.val / 256 ^ 8), x = 0 := fun x hx =>
      hall x (List.mem_reverse.2 hx)
    have hz := (bytesToNatLE_eq_zero_iff _).2 hall'
    rw [bytesToNatLE_natToBytesLE, Nat.mod_eq_of_lt hlt24] at hz
    have := (Nat.div_eq_zero_iff (pow_pos (by norm_num : (0:Nat) < 256) 8)).1 hz
    omega
  · intro hlt x hx
    have hdiv : s.val / 256 ^ 8 = 0 := Nat.div_eq_of_lt (h64 ▸ hlt)
    rw [hdiv] at hx
    have := (bytesToNatLE_eq_zero_iff (natToBytesLE 24 0)).1
      (by rw [bytesToNatLE_natToBytesLE]; simp)
    exact this x (List.mem_reverse.1 hx)

theorem secpUInt64_of_lt (s : ScSecp) (h : s.val < 2 ^ 64) :
    secpUInt64 s = .ok s.val := by
  have hover : ((secpEncode s).take (scalarLength - 8)).foldl
      (fun acc x => acc ||| x) 0 = 0 := by
    rw [foldl_lor_eq_zero_iff]
    exact ⟨rfl, (secp_high_zero_iff s).2 h⟩
  have hval : bytesToNatBE ((secpEncode s).drop (scalarLength - 8)) = s.val := by
    rw [(secp_take_drop s).2, bytesToNatBE, List.reverse_reverse,
      bytesToNatLE_natToBytesLE, Nat.mod_eq_of_lt (by norm_num at h ⊢; omega)]
  simp only [secpUInt64]
  rw [hover]
  simp [hval]

theorem secpUInt64_of_ge (s : ScSecp) (h : 2 ^ 64 ≤ s.val) :
    secpUInt64 s = .error .tooBig := by
  have hover : ((secpEncode s).take (scalarLength - 8)).foldl
      (fun acc x => acc ||| x) 0 ≠ 0 := by
    intro hc
    obtain ⟨-, hall⟩ := (foldl_lor_eq_zero_iff _ 0).1 hc
    have := (secp_high_zero_iff s).1 hall
    omega
  simp only [secpUInt64]
  rw [if_pos hover]

/-- C8: `UInt64` succeeds exactly when every byte of the canonical encoding
above the low 8 (the dropped little-endian tail for the 25519 backends; the
leading big-endian prefix for secp256k1) is zero, failing otherwise with the
value-too-large error, and `SetUInt64` followed by `UInt64` returns the
original `uint64` on both a little-endian and a big-endian backend. -/
theorem scalar_uint64_spec (s : Sc25519) (t : ScSecp) (i : Nat) (hi : i < 2 ^ 64) :
    ((∃ n, edUInt64 s = .ok n) ↔ ∀ x ∈ (scalarBytes s).drop 8, x = 0) ∧
    ((¬ ∀ x ∈ (scalarBytes s).drop 8, x = 0) → edUInt64 s = .error .tooBig) ∧
    edUInt64 (edSetUInt64 s i) = .ok i ∧
    ((∃ n, secpUInt64 t = .ok n) ↔
        ∀ x ∈ (secpEncode t).take (scalarLength - 8), x = 0) ∧
    secpUInt64 (secpSetUInt64 i) = .ok i := by
  refine ⟨?_, ?_, ?_, ?_, ?_⟩
  · rw [ed_high_zero_iff]
    constructor
    · rintro ⟨n, hn⟩
      by_contra hge
      push_neg at hge
      rw [edUInt64_of_ge s hge] at hn
      exact Except.noConfusion hn
    · intro hlt
      exact ⟨s.val, edUInt64_of_lt s hlt⟩
  · intro hnz
    rw [ed_high_zero_iff] at hnz
    exact edUInt64_of_ge s (by omega)
  · have hval := edSetUInt64_val s i hi
    rw [edUInt64_of_lt _ (by rw [hval]; exact hi), hval]
  · rw [secp_high_zero_iff]
    constructor
    · rintro ⟨n, hn⟩
      by_contra hge
      push_neg at hge
      rw [secpUInt64_of_ge t hge] at hn
      exact Except.noConfusion hn
    · intro hlt
      exact ⟨t.val, secpUInt64_of_lt t hlt⟩
  · have hval : (secpSetUInt64 i).val = i := by
      rw [secpSetUInt64, ZMod.val_natCast, Nat.mod_eq_of_lt hi,
        Nat.mod_eq_of_lt (lt_trans hi (by norm_num [N]))]
    rw [secpUInt64_of_lt _ (by rw [hval]; exact hi), hval]

/-- Witness for `scalar_uint64_spec` at `s = 0`, `t = 0`, `i = 77`. -/
theorem scalar_uint64_spec_witness :
    77 < 2 ^ 64 ∧ edUInt64 (edSetUInt64 0 77) = .ok 77 ∧
      secpUInt64 (secpSetUInt64 77) = .ok 77 :=
  ⟨by norm_num, (scalar_uint64_spec 0 0 77 (by norm_num)).2.2.1,
    (scalar_uint64_spec 0 0 77 (by norm_num)).2.2.2.2⟩

/-! ## Elements and the nil-operand policies

The public `ecc.Scalar`/`ecc.Element` wrappers delegate to an opaque backend
and implement all nil-operand policies themselves.  The claims below depend
only on the backend supplying a group with an identity and delegated
operations, so the external Edwards25519 point backend is modelled (from the
spec's backend-provider contract) as the additive cyclic group `ZMod L`
with `0` as the point at infinity and `s * e` as scalar multiplication; the
wrappers themselves are translated from the `ecc` package sources. -/

/-- Modelled from the spec: the prime-order point group of the external
Edwards25519 arithmetic backend, as an additive cyclic group of order `L`. -/
abbrev EdPoint := ZMod L

/-- The two panics `checkElement` can raise in the backend sources. -/
inductive ElementPanic where
  | nilPoint
  | castElement
  deriving DecidableEq

/-- Backend `checkElement` (edwards25519): a nil element is a fatal
`ErrParamNilPoint`; the cast failure cannot arise in this typed model. -/
def checkElement (o : Option EdPoint) : Except ElementPanic EdPoint :=
  match o with
  | none => .error .nilPoint
  | some x => .ok x

/-- Backend `Element.Add` (edwards25519): `checkElement` then group addition. -/
def edElementAdd (e : EdPoint) (o : Option EdPoint) : Except ElementPanic EdPoint :=
  (checkElement o).map (fun x => e + x)

/-- Backend `Element.Subtract` (edwards25519). -/
def edElementSubtract (e : EdPoint) (o : Option EdPoint) : Except ElementPanic EdPoint :=
  (checkElement o).map (fun x => e - x)

/-- Public `ecc.Element.Add`: `if element == nil { return e }`, else delegate. -/
def eccElementAdd (e : EdPoint) (o : Option EdPoint) : Except ElementPanic EdPoint :=
  match o with
  | none => .ok e
  | some x => edElementAdd e (some x)

/-- Public `ecc.Element.Subtract`: `if element == nil { return e }`, else delegate. -/
def eccElementSubtract (e : EdPoint) (o : Option EdPoint) : Except ElementPanic EdPoint :=
  match o with
  | none => .ok e
  | some x => edElementSubtract e (some x)

/-- Public `ecc.Element.Multiply`: a nil scalar sets the receiver to the
identity element, else scalar multiplication is delegated. -/
def eccElementMultiply (e : EdPoint) (o : Option Sc25519) : EdPoint :=
  match o with
  | none => 0
  | some sc => sc * e

/-- Backend `Element.Set` (edwards25519): a nil argument sets the receiver to
the identity element. -/
def edElementSet (_e : EdPoint) (o : Option EdPoint) : EdPoint :=
  match o with
  | none => 0
  | some x => x

/-- Public `ecc.Element.Set`: delegates to the backend `Set`, forwarding the
nil case. -/
def eccElementSet (e : EdPoint) (o : Option EdPoint) : EdPoint := edElementSet e o

/-- Public `ecc.Scalar.Add`: a nil operand is a no-op. -/
def eccScalarAdd (s : Sc25519) (o : Option Sc25519) : Sc25519 :=
  match o with
  | none => s
  | some x => s + x

/-- Public `ecc.Scalar.Subtract`: a nil operand is a no-op. -/
def eccScalarSubtract (s : Sc25519) (o : Option Sc25519) : Sc25519 :=
  match o with
  | none => s
  | some x => s - x

/-- Public `ecc.Scalar.Multiply`: a nil operand zeroes the receiver. -/
def eccScalarMultiply (s : Sc25519) (o : Option Sc25519) : Sc25519 :=
  match o with
  | none => 0
  | some x => s * x

/-- Public `ecc.Scalar.Set`: a nil argument zeroes the receiver. -/
def eccScalarSet (_s : Sc25519) (o : Option Sc25519) : Sc25519 :=
  match o with
  | none => 0
  | some x => x

/-- C2 (amended): at the public `ecc.Element` abstraction, `Add(nil)` and
`Subtract(nil)` ARE no-ops returning the receiver unchanged — the nil guard
returns before the backend is reached; the fatal `NilElement` behaviour
exists only in the backend `Add`/`Subtract` (`checkElement`), which a nil
operand can never reach through the public wrapper. -/
theorem element_add_subtract_nil (e : EdPoint) :
    eccElementAdd e none = .ok e ∧ eccElementSubtract e none = .ok e ∧
    edElementAdd e none = .error .nilPoint ∧
    edElementSubtract e none = .error .nilPoint :=
  ⟨rfl, rfl, rfl, rfl⟩

/-- C2 counterexample: on the concrete element `1`, the public `Add(nil)` and
`Subtract(nil)` return the receiver unchanged and do not fail. -/
theorem element_add_nil_counterexample :
    eccElementAdd 1 none = .ok 1 ∧ eccElementSubtract 1 none = .ok 1 ∧
      eccElementAdd 1 none ≠ .error .nilPoint :=
  ⟨rfl, rfl, fun h => Except.noConfusion h⟩

/-- C9: nil-operand policy of the public wrappers: `Add(nil)`/`Subtract(nil)`
on scalars leave the receiver unchanged and return it, `Multiply(nil)` on a
scalar zeroes the receiver, and `Multiply(nil)` on an element sets it to the
identity; non-nil operands delegate to the backend operation. -/
theorem scalar_nil_policy (s x : Sc25519) (e : EdPoint) :
    eccScalarAdd s none = s ∧ eccScalarSubtract s none = s ∧
    eccScalarMultiply s none = 0 ∧ eccElementMultiply e none = 0 ∧
    eccScalarAdd s (some x) = s + x ∧ eccScalarSubtract s (some x) = s - x ∧
    eccScalarMultiply s (some x) = s * x :=
  ⟨rfl, rfl, rfl, rfl, rfl, rfl, rfl⟩

/-- C10: `Set(nil)` zeroes a scalar receiver and sets an element receiver to
the identity, returning the receiver in both cases (never a fatal error);
`Set(x)` copies the argument. -/
theorem set_nil_policy (s x : Sc25519) (e p : EdPoint) :
    eccScalarSet s none = 0 ∧ eccScalarSet s (some x) = x ∧
    eccElementSet e none = 0 ∧ eccElementSet e (some p) = p :=
  ⟨rfl, rfl, rfl, rfl⟩

/-! ## Element `Decode` (Edwards25519)

`Element.Decode` of the edwards25519 backend rejects empty input
(`ErrParamInvalidPointEncoding`), passes the bytes to the backend point
decoder (external library; by the backend contract it accepts exactly the
canonical fixed-length encodings), then rejects the identity specifically
(`ErrIdentity`, the dedicated branch in the source) before assigning the
receiver. -/

/-- The distinct element-decoding failures of the edwards25519 backend. -/
inductive ElementDecodeError where
  | invalidPointEncoding
  | backendDecode
  | identity
  deriving DecidableEq

/-- Modelled from the spec: the canonical fixed-length point encoding of the
external Edwards25519 backend (injective, 32 bytes). -/
def edPointEncode (p : EdPoint) : List Nat := natToBytesLE 32 p.val

/-- Modelled from the spec: the backend point decoder accepts exactly the
canonical encodings (fixed length, byte-valued entries, canonical value). -/
def edPointDecode (b : List Nat) : Option EdPoint :=
  if b.length = 32 ∧ (∀ x ∈ b, x < 256) ∧ bytesToNatLE b < L then
    some ((bytesToNatLE b : Nat) : EdPoint)
  else none

/-- Backend `Element.Decode` (edwards25519) as a state-passing function:
empty input, backend rejection, and the explicit identity check, in source
order; the receiver is assigned only on success. -/
def edElementDecode (e : EdPoint) (data : List Nat) : EdPoint × Option ElementDecodeError :=
  if data.length = 0 then (e, some .invalidPointEncoding)
  else
    match edPointDecode data with
    | none => (e, some .backendDecode)
    | some p => if p = 0 then (e, some .identity) else (p, none)

theorem edPointDecode_encode (p : EdPoint) : edPointDecode (edPointEncode p) = some p := by
  have hlen : (edPointEncode p).length = 32 := length_natToBytesLE ..
  have hmem : ∀ x ∈ edPointEncode p, x < 256 := by
    rw [edPointEncode]
    exact mem_natToBytesLE_lt 32 p.val
  have hval : bytesToNatLE (edPointEncode p) = p.val :=
    bytesToNatLE_natToBytesLE_of_lt (val_lt_256_pow p)
  rw [edPointDecode, if_pos ⟨hlen, hmem, by rw [hval]; exact ZMod.val_lt p⟩, hval]
  rw [ZMod.natCast_rightInverse p]

/-- C5: decoding the identity's canonical encoding fails with the dedicated
identity-rejection error (distinct from the other decode errors); decoding
the canonical encoding of any other element succeeds with exactly that
element; and every successful decode yields a non-identity element that
re-encodes to exactly the input bytes. -/
theorem edElementDecode_spec (e : EdPoint) :
    (edElementDecode e (edPointEncode 0)).2 = some .identity ∧
    (∀ p : EdPoint, p ≠ 0 → edElementDecode e (edPointEncode p) = (p, none)) ∧
    (∀ b : List Nat, (edElementDecode e b).2 = none →
      (edElementDecode e b).1 ≠ 0 ∧ edPointEncode ((edElementDecode e b).1) = b) ∧
    ElementDecodeError.identity ≠ ElementDecodeError.backendDecode ∧
    ElementDecodeError.identity ≠ ElementDecodeError.invalidPointEncoding := by
  have hlen0 : ∀ p : EdPoint, (edPointEncode p).length = 32 := fun p => length_natToBytesLE ..
  refine ⟨?_, ?_, ?_, by decide, by decide⟩
  · rw [edElementDecode, if_neg (by rw [hlen0]; omega), edPointDecode_encode]
    simp
  · intro p hp
    rw [edElementDecode, if_neg (by rw [hlen0]; omega), edPointDecode_encode]
    simp [hp]
  · intro b hsucc
    by_cases h0 : b.length = 0
    · rw [edElementDecode, if_pos h0] at hsucc
      simp at hsucc
    · cases hdec : edPointDecode b with
      | none =>
        rw [edElementDecode, if_neg h0, hdec] at hsucc
        simp at hsucc
      | some p =>
        by_cases hp : p = 0
        · rw [edElementDecode, if_neg h0, hdec] at hsucc
          simp [hp] at hsucc
        · have hres : edElementDecode e b = (p, none) := by
            rw [edElementDecode, if_neg h0, hdec]
            simp [hp]
          rw [hres]
          refine ⟨hp, ?_⟩
          rw [edPointDecode] at hdec
          by_cases hcond : b.length = 32 ∧ (∀ x ∈ b, x < 256) ∧ bytesToNatLE b < L
          · rw [if_pos hcond] at hdec
            obtain ⟨hblen, hbmem, hbval⟩ := hcond
            have hpv : p = ((bytesToNatLE b : Nat) : EdPoint) := (Option.some_inj.1 hdec).symm
            have hpval : p.val = bytesToNatLE b := by
              rw [hpv, ZMod.val_natCast, Nat.mod_eq_of_lt hbval]
            rw [edPointEncode, hpval, ← hblen, natToBytesLE_bytesToNatLE hbmem]
          · rw [if_neg hcond] at hdec
            exact Option.noConfusion hdec

/-- Witness for `edElementDecode_spec`: decoding the encoding of the
element `1` into the identity receiver succeeds and yields `1`. -/
theorem edElementDecode_spec_witness :
    edElementDecode 0 (edPointEncode 1) = (1, none) :=
  (edElementDecode_spec 0).2.1 1 (by decide)
